import Mathlib

/-!
Verification of the separate-chaining hash map in src/lib.rs (hashmap-rs).

The embedding models the Rust structures directly:
* Vec<Vec<(K, V)>> becomes List (List (K × V)); usize counters become Nat.
* The DefaultHasher is abstracted as a parameter hash : K → Nat.  Equal keys
  hash equally by congruence, which is all the source relies on.
* Fallible operations return Option: the outer none models a Rust panic.
  The only panics the source can reach are the remainder-by-zero inside
  bucket_idx when buckets.len() == 0 and an out-of-bounds swap_remove.
* Borrowed query types (Q with K : Borrow<Q>) are specialised to K itself;
  the Borrow contract makes the two hash-and-compare behaviours identical.
-/

set_option maxHeartbeats 1000000
set_option linter.unusedSectionVars false
set_option linter.unusedVariables false
set_option linter.unnecessarySimpa false

/-- Models struct HashMap<K, V> from src/lib.rs: a Vec of buckets, each a Vec
of (key, value) entries, together with the live item count. -/
structure HashMap (K V : Type) where
  buckets : List (List (K × V))
  items : Nat
deriving DecidableEq

/-- Models const INITIAL_N_BUCKETS: usize = 1. -/
def INITIAL_N_BUCKETS : Nat := 1

namespace HashMap

variable {K V : Type} [DecidableEq K]

/-- Vec read indexing bs[i].  Every read the source performs is in bounds
(proved below); out-of-range reads default to the empty bucket. -/
def bucketAt (bs : List (List (K × V))) (i : Nat) : List (K × V) :=
  (bs[i]?).getD []

/-- Models HashMap::new. -/
def new : HashMap K V :=
  { buckets := [], items := 0 }

/-- Models HashMap::len. -/
def len (m : HashMap K V) : Nat := m.items

/-- Models HashMap::is_empty. -/
def is_empty (m : HashMap K V) : Bool := m.items == 0

/-- Models fn bucket_idx: (hash(key) % buckets.len() as u64) as usize.
The u64 remainder panics when buckets.len() == 0; the panic is the none
result.  bucket_idx is called unconditionally by get, remove and
contains_key, even on a table with zero buckets. -/
def bucket_idx (hash : K → Nat) (m : HashMap K V) (key : K) : Option Nat :=
  if m.buckets.length = 0 then none
  else some (hash key % m.buckets.length)

/-- One step of the redistribution loop in resize: push entry e onto the
bucket with index hash(key) % new_buckets.len().  Pushing never changes the
outer length, so bs.length stays equal to the target size. -/
def pushEntry (hash : K → Nat) (bs : List (List (K × V))) (e : K × V) :
    List (List (K × V)) :=
  bs.set (hash e.1 % bs.length) (bucketAt bs (hash e.1 % bs.length) ++ [e])

/-- Models fn resize: pick the target size (1 from zero buckets, else double),
then drain every bucket in order and redistribute each entry by its hash
modulo the new size.  The drain order is bucket order then item order, i.e.
the flatten of the old bucket store.  The item count is untouched. -/
def resize (hash : K → Nat) (m : HashMap K V) : HashMap K V :=
  let target := match m.buckets.length with
    | 0 => INITIAL_N_BUCKETS
    | n => 2 * n
  { buckets := m.buckets.flatten.foldl (pushEntry hash) (List.replicate target []),
    items := m.items }

/-- Models the scan loop in insert: walk the bucket looking for an entry whose
key equals the probe; on a hit, mem::replace the value (the stored key is
kept) and return the old value together with the updated bucket. -/
def replaceInBucket (key : K) (value : V) : List (K × V) → Option (V × List (K × V))
  | [] => none
  | e :: rest =>
    if e.1 = key then some (e.2, (e.1, value) :: rest)
    else match replaceInBucket key value rest with
      | none => none
      | some (old, rest') => some (old, e :: rest')

/-- The growth check at the top of HashMap::insert: resize when
buckets.is_empty() or items > 3 * buckets.len() / 4 (pre-insert counts,
integer floor division), otherwise leave the table alone. -/
def growIfNeeded (hash : K → Nat) (m : HashMap K V) : HashMap K V :=
  if m.buckets.length = 0 ∨ m.items > 3 * m.buckets.length / 4
  then resize hash m else m

/-- Models HashMap::insert: run the growth check first, then locate the
bucket by hash modulo the post-growth length, then scan-replace or append.
After the growth check the bucket count is at least 1 (proved below), so the
modulo here coincides with bucket_idx. -/
def insert (hash : K → Nat) (m : HashMap K V) (key : K) (value : V) :
    Option V × HashMap K V :=
  let m1 := growIfNeeded hash m
  let idx := hash key % m1.buckets.length
  let bucket := bucketAt m1.buckets idx
  match replaceInBucket key value bucket with
  | some (old, bucket') =>
      (some old, { buckets := m1.buckets.set idx bucket', items := m1.items })
  | none =>
      (none, { buckets := m1.buckets.set idx (bucket ++ [(key, value)]),
               items := m1.items + 1 })

/-- Models HashMap::get: bucket_idx (panics on zero buckets), then a linear
find in that bucket; some r is a normal return with r the Rust Option. -/
def get (hash : K → Nat) (m : HashMap K V) (key : K) : Option (Option V) :=
  match bucket_idx hash m key with
  | none => none
  | some idx =>
      some (((bucketAt m.buckets idx).find? (fun e => e.1 == key)).map Prod.snd)

/-- Models Iterator::position over the bucket in remove: index of the first
entry whose key equals the probe. -/
def position (key : K) : List (K × V) → Option Nat
  | [] => none
  | e :: rest => if e.1 = key then some 0 else (position key rest).map (· + 1)

/-- Models Vec::swap_remove i: overwrite slot i with the last element, then
drop the last slot.  Faithful for i < l.length, the only way the source calls
it (position guarantees the bound). -/
def swapRemove (l : List (K × V)) (i : Nat) : List (K × V) :=
  match l.getLast? with
  | none => l
  | some x => (l.set i x).dropLast

/-- Models HashMap::remove: bucket_idx (panics on zero buckets), position scan
with the question-mark early return (no mutation on a miss), then decrement
items and swap_remove the found slot, returning the removed value. -/
def remove (hash : K → Nat) (m : HashMap K V) (key : K) :
    Option (Option V × HashMap K V) :=
  match bucket_idx hash m key with
  | none => none
  | some idx =>
    let bucket := bucketAt m.buckets idx
    match position key bucket with
    | none => some (none, m)
    | some i =>
      match bucket[i]? with
      | none => none
      | some e =>
          some (some e.2,
            { buckets := m.buckets.set idx (swapRemove bucket i),
              items := m.items - 1 })

/-- Models HashMap::contains_key: bucket_idx (panics on zero buckets), then a
linear any over that bucket. -/
def contains_key (hash : K → Nat) (m : HashMap K V) (key : K) : Option Bool :=
  match bucket_idx hash m key with
  | none => none
  | some idx => some ((bucketAt m.buckets idx).any (fun e => e.1 == key))

/-- The entries stored in the table, in bucket order then item order. -/
def entries (m : HashMap K V) : List (K × V) := m.buckets.flatten

end HashMap

/-- Models struct HashIter: a borrowed map plus the bucket and item cursor. -/
structure HashIter (K V : Type) where
  map : HashMap K V
  current_bucket : Nat
  current_item : Nat
deriving DecidableEq

/-- Models HashIter::new (also IntoIterator for &HashMap). -/
def HashIter.new {K V : Type} (m : HashMap K V) : HashIter K V :=
  { map := m, current_bucket := 0, current_item := 0 }

/-- Models Iterator::next for HashIter: the inner loop either yields the item
under the cursor and advances the item index, skips to the next bucket when
the current one is exhausted, or stops once the bucket index runs off the end
of the bucket store. -/
def HashIter.next {K V : Type} (it : HashIter K V) :
    Option ((K × V) × HashIter K V) :=
  match h : it.map.buckets[it.current_bucket]? with
  | none => none
  | some bucket =>
    match bucket[it.current_item]? with
    | some e => some (e, ⟨it.map, it.current_bucket, it.current_item + 1⟩)
    | none => HashIter.next ⟨it.map, it.current_bucket + 1, 0⟩
  termination_by it.map.buckets.length - it.current_bucket
  decreasing_by
    have hb : it.current_bucket < it.map.buckets.length := by
      by_contra hc
      rw [List.getElem?_eq_none_iff.mpr (Nat.le_of_not_lt hc)] at h
      exact Option.noConfusion h
    exact Nat.sub_succ_lt_self _ _ hb

/-- The sequence of entries the iterator still has to yield from a given
cursor: the rest of the current bucket, then all later buckets. -/
def remainingFrom {K V : Type} (bs : List (List (K × V))) (cb ci : Nat) :
    List (K × V) :=
  (HashMap.bucketAt bs cb).drop ci ++ ((bs.drop (cb + 1)).flatten)

/-! ## Generic list facts used throughout -/

theorem any_eq_isSome_find {α : Type} (p : α → Bool) (l : List α) :
    l.any p = (l.find? p).isSome := by
  induction l with
  | nil => rfl
  | cons a t ih =>
    by_cases hp : p a
    · simp [List.any_cons, List.find?_cons, hp]
    · simp only [List.any_cons, List.find?_cons, Bool.not_eq_true] at hp ⊢
      simp [hp, ih]

theorem set_of_getElem_eq {α : Type} {l : List α} {i : Nat} {e : α}
    (h : l[i]? = some e) : l.set i e = l := by
  obtain ⟨hlt, he⟩ := List.getElem?_eq_some_iff.mp h
  subst he
  rw [List.set_eq_take_cons_drop _ hlt]
  conv_rhs => rw [← List.take_append_drop i l, List.drop_eq_getElem_cons hlt]

namespace HashMap

variable {K V : Type} [DecidableEq K]

omit [DecidableEq K] in
theorem bucketAt_nil (i : Nat) : bucketAt ([] : List (List (K × V))) i = [] := by
  simp [bucketAt]

omit [DecidableEq K] in
theorem bucketAt_cons_zero (b : List (K × V)) (bs : List (List (K × V))) :
    bucketAt (b :: bs) 0 = b := by
  simp [bucketAt]

omit [DecidableEq K] in
theorem bucketAt_cons_succ (b : List (K × V)) (bs : List (List (K × V))) (i : Nat) :
    bucketAt (b :: bs) (i + 1) = bucketAt bs i := by
  simp [bucketAt]

omit [DecidableEq K] in
theorem bucketAt_of_le {bs : List (List (K × V))} {i : Nat} (h : bs.length ≤ i) :
    bucketAt bs i = [] := by
  simp [bucketAt, List.getElem?_eq_none_iff.mpr h]

omit [DecidableEq K] in
theorem bucketAt_set_self {bs : List (List (K × V))} {i : Nat} (b : List (K × V))
    (h : i < bs.length) : bucketAt (bs.set i b) i = b := by
  simp [bucketAt, List.getElem?_set_self h]

omit [DecidableEq K] in
theorem bucketAt_set_ne {bs : List (List (K × V))} {i j : Nat} (b : List (K × V))
    (h : i ≠ j) : bucketAt (bs.set i b) j = bucketAt bs j := by
  simp [bucketAt, List.getElem?_set_ne h]

omit [DecidableEq K] in
theorem mem_flatten_of_mem_bucketAt {bs : List (List (K × V))} {i : Nat}
    {e : K × V} (h : e ∈ bucketAt bs i) : e ∈ bs.flatten := by
  unfold bucketAt at h
  cases hb : bs[i]? with
  | none => rw [hb] at h; simp at h
  | some b =>
    rw [hb] at h
    simp only [Option.getD_some] at h
    obtain ⟨hlt, hbe⟩ := List.getElem?_eq_some_iff.mp hb
    exact List.mem_flatten.mpr ⟨b, hbe ▸ List.getElem_mem hlt, h⟩

omit [DecidableEq K] in
theorem flatten_set_perm (bs : List (List (K × V))) (i : Nat) (b' : List (K × V))
    (h : i < bs.length) :
    (bucketAt bs i ++ (bs.set i b').flatten).Perm (b' ++ bs.flatten) := by
  induction bs generalizing i with
  | nil => simp at h
  | cons b t ih =>
    cases i with
    | zero =>
      rw [bucketAt_cons_zero]
      show (b ++ (b' :: t).flatten).Perm (b' ++ (b :: t).flatten)
      rw [List.flatten_cons, List.flatten_cons]
      simpa [List.append_assoc] using
        (@List.perm_append_comm _ b b').append_right t.flatten
    | succ i =>
      rw [bucketAt_cons_succ]
      have ih' := ih i (Nat.lt_of_succ_lt_succ h)
      show (bucketAt t i ++ (b :: t.set i b').flatten).Perm (b' ++ (b :: t).flatten)
      rw [List.flatten_cons, List.flatten_cons]
      have p1 : (bucketAt t i ++ (b ++ (t.set i b').flatten)).Perm
          (b ++ (bucketAt t i ++ (t.set i b').flatten)) := by
        simpa [List.append_assoc] using
          (@List.perm_append_comm _ (bucketAt t i) b).append_right
            (t.set i b').flatten
      have p2 : (b ++ (bucketAt t i ++ (t.set i b').flatten)).Perm
          (b ++ (b' ++ t.flatten)) := ih'.append_left b
      have p3 : (b ++ (b' ++ t.flatten)).Perm (b' ++ (b ++ t.flatten)) := by
        simpa [List.append_assoc] using
          (@List.perm_append_comm _ b b').append_right t.flatten
      exact (p1.trans p2).trans p3

omit [DecidableEq K] in
theorem flatten_perm_bucketAt (bs : List (List (K × V))) {i : Nat}
    (h : i < bs.length) :
    bs.flatten.Perm (bucketAt bs i ++ (bs.set i []).flatten) := by
  have := (flatten_set_perm bs i [] h).symm
  simpa using this

omit [DecidableEq K] in
theorem flatten_set_perm_root (bs : List (List (K × V))) {i : Nat}
    (b' : List (K × V)) (h : i < bs.length) :
    ((bs.set i b').flatten).Perm (b' ++ (bs.set i []).flatten) := by
  have h' : i < (bs.set i b').length := by simpa using h
  have := flatten_perm_bucketAt _ h'
  rwa [bucketAt_set_self b' h, List.set_set] at this

/-! ## Facts about the bucket scans -/

theorem position_eq_none {key : K} {l : List (K × V)} :
    position key l = none ↔ ∀ e ∈ l, e.1 ≠ key := by
  induction l with
  | nil => simp [position]
  | cons e t ih =>
    by_cases he : e.1 = key
    · simp [position, he]
    · simp [position, he, ih]

theorem position_eq_some {key : K} {l : List (K × V)} {i : Nat}
    (h : position key l = some i) :
    ∃ front rest e0, l = front ++ e0 :: rest ∧ front.length = i ∧ e0.1 = key ∧
      ∀ e ∈ front, e.1 ≠ key := by
  induction l generalizing i with
  | nil => simp [position] at h
  | cons e t ih =>
    by_cases he : e.1 = key
    · rw [position, if_pos he] at h
      cases h
      exact ⟨[], t, e, rfl, rfl, he, by simp⟩
    · rw [position, if_neg he] at h
      cases hp : position key t with
      | none => rw [hp] at h; simp at h
      | some j =>
        rw [hp] at h
        obtain rfl : j + 1 = i := by simpa using h
        obtain ⟨front, rest, e0, hl, hlen, hk, hfront⟩ := ih hp
        refine ⟨e :: front, rest, e0, by rw [hl]; rfl, ?_, hk, ?_⟩
        · simp [hlen]
        · intro x hx
          rcases List.mem_cons.mp hx with hx | hx
          · exact hx ▸ he
          · exact hfront x hx

theorem position_getElem {key : K} {l : List (K × V)} {i : Nat}
    (h : position key l = some i) :
    ∃ e0, l[i]? = some e0 ∧ e0.1 = key := by
  obtain ⟨front, rest, e0, hl, hlen, hk, -⟩ := position_eq_some h
  refine ⟨e0, ?_, hk⟩
  rw [hl, List.getElem?_append_right (by omega)]
  simp [← hlen]

theorem swapRemove_perm {l : List (K × V)} {i : Nat} {e : K × V}
    (h : l[i]? = some e) : (e :: swapRemove l i).Perm l := by
  have hlt : i < l.length := (List.getElem?_eq_some_iff.mp h).1
  have hne : l ≠ [] := List.ne_nil_of_length_pos (Nat.lt_of_le_of_lt (Nat.zero_le _) hlt)
  obtain ⟨x, hx⟩ : ∃ x, l.getLast? = some x :=
    ⟨l.getLast hne, List.getLast?_eq_getLast l hne⟩
  have hgl : l.getLast hne = x := by
    have h1 := List.getLast?_eq_getLast l hne
    rw [hx] at h1
    exact Option.some_injective _ h1.symm
  have hdecomp : l = l.dropLast ++ [x] := by
    conv_lhs => rw [← List.dropLast_concat_getLast hne, hgl]
  have hsw : swapRemove l i = (l.set i x).dropLast := by
    rw [swapRemove, hx]
  have hlenA : l.dropLast.length = l.length - 1 := List.length_dropLast l
  by_cases hi : i < l.dropLast.length
  · -- the removed slot is not the last one
    have hset : l.set i x = l.dropLast.set i x ++ [x] := by
      conv_lhs => rw [hdecomp]
      exact List.set_append_left i x hi
    rw [hsw, hset, List.dropLast_concat]
    have he' : l.dropLast[i]? = some e := by
      rw [hdecomp, List.getElem?_append_left hi] at h
      exact h
    obtain ⟨hlt', he''⟩ := List.getElem?_eq_some_iff.mp he'
    rw [List.set_eq_take_cons_drop x hlt']
    have hA : l.dropLast = l.dropLast.take i ++ e :: l.dropLast.drop (i + 1) := by
      conv_lhs => rw [← List.take_append_drop i l.dropLast,
        List.drop_eq_getElem_cons hlt', he'']
    conv_rhs => rw [hdecomp, hA]
    have p1 : (e :: (l.dropLast.take i ++ x :: l.dropLast.drop (i + 1))).Perm
        (l.dropLast.take i ++ e :: (x :: l.dropLast.drop (i + 1))) :=
      List.perm_middle.symm
    have p2 : (x :: l.dropLast.drop (i + 1)).Perm (l.dropLast.drop (i + 1) ++ [x]) :=
      (List.perm_append_singleton x _).symm
    have p3 : (l.dropLast.take i ++ e :: (x :: l.dropLast.drop (i + 1))).Perm
        (l.dropLast.take i ++ e :: (l.dropLast.drop (i + 1) ++ [x])) :=
      (p2.cons e).append_left _
    have p4 : l.dropLast.take i ++ e :: (l.dropLast.drop (i + 1) ++ [x])
        = (l.dropLast.take i ++ e :: l.dropLast.drop (i + 1)) ++ [x] := by
      simp [List.append_assoc]
    exact p4 ▸ (p1.trans p3)
  · -- the removed slot is the last one: e is the last element
    have hi' : i - l.dropLast.length = 0 := by omega
    have hxe : x = e := by
      rw [hdecomp, List.getElem?_append_right (by omega), hi'] at h
      simpa using h
    subst hxe
    rw [hsw, set_of_getElem_eq h]
    conv_rhs => rw [hdecomp]
    exact (List.perm_append_singleton x _).symm

theorem replaceInBucket_eq_none {key : K} {value : V} {l : List (K × V)}
    (h : ∀ e ∈ l, e.1 ≠ key) : replaceInBucket key value l = none := by
  induction l with
  | nil => rfl
  | cons e t ih =>
    rw [replaceInBucket, if_neg (h e (List.mem_cons_self e t))]
    rw [ih fun x hx => h x (List.mem_cons_of_mem e hx)]

theorem replaceInBucket_eq_some {key : K} {value : V} {l l' : List (K × V)} {w : V}
    (h : replaceInBucket key value l = some (w, l')) :
    ∃ front rest e0, l = front ++ e0 :: rest ∧ e0.1 = key ∧ e0.2 = w ∧
      l' = front ++ (e0.1, value) :: rest ∧ ∀ e ∈ front, e.1 ≠ key := by
  induction l generalizing l' w with
  | nil => simp [replaceInBucket] at h
  | cons e t ih =>
    by_cases he : e.1 = key
    · rw [replaceInBucket, if_pos he] at h
      cases h
      exact ⟨[], t, e, rfl, he, rfl, rfl, by simp⟩
    · rw [replaceInBucket, if_neg he] at h
      cases hr : replaceInBucket key value t with
      | none => rw [hr] at h; exact absurd h (by simp)
      | some p =>
        rw [hr] at h
        cases h
        obtain ⟨front, rest, e0, hl, hk, hw, hl', hfront⟩ := ih hr
        refine ⟨e :: front, rest, e0, by rw [hl]; rfl, hk, hw, by rw [hl']; rfl, ?_⟩
        intro x hx
        rcases List.mem_cons.mp hx with hx | hx
        · exact hx ▸ he
        · exact hfront x hx

/-! ## Keys and uniqueness -/

theorem value_eq_of_nodup_keys {es : List (K × V)}
    (hnd : (es.map Prod.fst).Nodup) {k : K} {v₁ v₂ : V}
    (h₁ : (k, v₁) ∈ es) (h₂ : (k, v₂) ∈ es) : v₁ = v₂ := by
  induction es with
  | nil => simp at h₁
  | cons e t ih =>
    rw [List.map_cons, List.nodup_cons] at hnd
    rcases List.mem_cons.mp h₁ with h₁ | h₁ <;> rcases List.mem_cons.mp h₂ with h₂ | h₂
    · exact congrArg Prod.snd (h₁.trans h₂.symm)
    · exfalso
      exact hnd.1 (by rw [← h₁]; exact List.mem_map.mpr ⟨(k, v₂), h₂, rfl⟩)
    · exfalso
      exact hnd.1 (by rw [← h₂]; exact List.mem_map.mpr ⟨(k, v₁), h₁, rfl⟩)
    · exact ih hnd.2 h₁ h₂

theorem find_eq_of_nodup_keys {es : List (K × V)}
    (hnd : (es.map Prod.fst).Nodup) {k : K} {v : V} (h : (k, v) ∈ es) :
    es.find? (fun e => e.1 == k) = some (k, v) := by
  induction es with
  | nil => simp at h
  | cons e t ih =>
    rw [List.map_cons, List.nodup_cons] at hnd
    by_cases he : e.1 = k
    · rw [List.find?_cons_of_pos _ (by simp [he])]
      rcases List.mem_cons.mp h with h | h
      · rw [h]
      · exfalso
        exact hnd.1 (by rw [he]; exact List.mem_map.mpr ⟨(k, v), h, rfl⟩)
    · rw [List.find?_cons_of_neg _ (by simp [he])]
      rcases List.mem_cons.mp h with h | h
      · exact absurd (congrArg Prod.fst h.symm) he
      · exact ih hnd.2 h

theorem find_eq_none_of_fresh {es : List (K × V)} {k : K}
    (h : ∀ e ∈ es, e.1 ≠ k) : es.find? (fun e => e.1 == k) = none :=
  List.find?_eq_none.mpr fun e he => by simpa using h e he

/-! ## The table invariant -/

/-- The representation invariant of a well-formed table: the item count
agrees with the stored entries, keys are unique table-wide, and every entry
sits in the bucket selected by its hash modulo the current bucket count. -/
structure Inv (hash : K → Nat) (m : HashMap K V) : Prop where
  count : m.items = (m.buckets.map List.length).sum
  nodup : ((entries m).map Prod.fst).Nodup
  placed : ∀ i < m.buckets.length, ∀ e ∈ bucketAt m.buckets i,
    hash e.1 % m.buckets.length = i

theorem Inv.count_entries {hash : K → Nat} {m : HashMap K V} (h : Inv hash m) :
    m.items = (entries m).length := by
  rw [h.count, entries, List.length_flatten]

theorem length_pos_of_mem_entries {m : HashMap K V} {e : K × V}
    (h : e ∈ entries m) : 0 < m.buckets.length := by
  obtain ⟨b, hb, -⟩ := List.mem_flatten.mp h
  exact List.length_pos_of_mem hb

theorem mem_bucketAt_of_placed {hash : K → Nat} {m : HashMap K V}
    (hpl : ∀ i < m.buckets.length, ∀ e ∈ bucketAt m.buckets i,
      hash e.1 % m.buckets.length = i)
    {e : K × V} (h : e ∈ entries m) :
    e ∈ bucketAt m.buckets (hash e.1 % m.buckets.length) := by
  obtain ⟨b, hb, hmem⟩ := List.mem_flatten.mp h
  obtain ⟨j, hj, hbj⟩ := List.mem_iff_getElem.mp hb
  have hat : bucketAt m.buckets j = b := by
    simp [bucketAt, List.getElem?_eq_getElem hj, hbj]
  have := hpl j hj e (hat ▸ hmem)
  rw [this, hat]
  exact hmem

theorem nodup_bucket_keys {hash : K → Nat} {m : HashMap K V} (hinv : Inv hash m)
    {i : Nat} (h : i < m.buckets.length) :
    ((bucketAt m.buckets i).map Prod.fst).Nodup := by
  have hperm := flatten_perm_bucketAt (m.buckets) h
  have hkeys := hperm.map Prod.fst
  rw [List.map_append] at hkeys
  have hnd := (hkeys.nodup_iff).mp hinv.nodup
  exact hnd.of_append_left

/-! ## Behaviour of resize -/

theorem pushEntry_length (hash : K → Nat) (bs : List (List (K × V))) (e : K × V) :
    (pushEntry hash bs e).length = bs.length := by
  simp [pushEntry]

theorem foldl_pushEntry_length (hash : K → Nat) (es : List (K × V))
    (bs : List (List (K × V))) :
    (es.foldl (pushEntry hash) bs).length = bs.length := by
  induction es generalizing bs with
  | nil => rfl
  | cons e t ih => rw [List.foldl_cons, ih, pushEntry_length]

theorem pushEntry_flatten_perm (hash : K → Nat) {bs : List (List (K × V))}
    (hpos : 0 < bs.length) (e : K × V) :
    ((pushEntry hash bs e).flatten).Perm (e :: bs.flatten) := by
  have hidx : hash e.1 % bs.length < bs.length := Nat.mod_lt _ hpos
  have h1 := flatten_set_perm_root _ (bucketAt bs (hash e.1 % bs.length) ++ [e]) hidx
  have h2 := flatten_perm_bucketAt _ hidx
  have h3 : ((bucketAt bs (hash e.1 % bs.length) ++ [e])
      ++ (bs.set (hash e.1 % bs.length) []).flatten).Perm
      (e :: (bucketAt bs (hash e.1 % bs.length)
        ++ (bs.set (hash e.1 % bs.length) []).flatten)) := by
    have := (List.perm_append_singleton e
      (bucketAt bs (hash e.1 % bs.length))).append_right
        ((bs.set (hash e.1 % bs.length) []).flatten)
    simp only [List.append_assoc] at this
    simpa using this
  exact (h1.trans h3).trans (h2.symm.cons e)

theorem foldl_pushEntry_flatten_perm (hash : K → Nat) {bs : List (List (K × V))}
    (hpos : 0 < bs.length) (es : List (K × V)) :
    ((es.foldl (pushEntry hash) bs).flatten).Perm (bs.flatten ++ es) := by
  induction es generalizing bs with
  | nil => simp
  | cons e t ih =>
    rw [List.foldl_cons]
    have hpos' : 0 < (pushEntry hash bs e).length := by
      rw [pushEntry_length]; exact hpos
    have h1 := ih hpos'
    have h2 := (pushEntry_flatten_perm hash hpos e).append_right t
    have h3 : (e :: bs.flatten ++ t).Perm (bs.flatten ++ e :: t) := by
      simpa using (@List.perm_middle _ e bs.flatten t).symm
    exact (h1.trans h2).trans h3

theorem foldl_pushEntry_placed (hash : K → Nat) {bs : List (List (K × V))}
    (hpos : 0 < bs.length)
    (hpl : ∀ i < bs.length, ∀ e ∈ bucketAt bs i, hash e.1 % bs.length = i)
    (es : List (K × V)) :
    ∀ i < (es.foldl (pushEntry hash) bs).length,
      ∀ e ∈ bucketAt (es.foldl (pushEntry hash) bs) i,
        hash e.1 % (es.foldl (pushEntry hash) bs).length = i := by
  induction es generalizing bs with
  | nil => exact hpl
  | cons e t ih =>
    rw [List.foldl_cons]
    have hpos' : 0 < (pushEntry hash bs e).length := by
      rw [pushEntry_length]; exact hpos
    refine ih hpos' ?_
    intro i hi x hx
    rw [pushEntry_length] at hi
    rw [pushEntry_length]
    have hidx : hash e.1 % bs.length < bs.length := Nat.mod_lt _ hpos
    by_cases heq : hash e.1 % bs.length = i
    · rw [pushEntry, heq, bucketAt_set_self _ (heq ▸ hidx)] at hx
      rcases List.mem_append.mp hx with hx | hx
      · exact hpl i hi x hx
      · rw [List.mem_singleton.mp hx]
        exact heq
    · rw [pushEntry, bucketAt_set_ne _ heq] at hx
      exact hpl i hi x hx

theorem resize_items (hash : K → Nat) (m : HashMap K V) :
    (resize hash m).items = m.items := rfl

theorem resize_length (hash : K → Nat) (m : HashMap K V) :
    (resize hash m).buckets.length
      = if m.buckets.length = 0 then 1 else 2 * m.buckets.length := by
  show (m.buckets.flatten.foldl (pushEntry hash)
    (List.replicate _ [])).length = _
  rw [foldl_pushEntry_length, List.length_replicate]
  cases hn : m.buckets.length with
  | zero => rfl
  | succ n => rfl

theorem resize_length_pos (hash : K → Nat) (m : HashMap K V) :
    0 < (resize hash m).buckets.length := by
  rw [resize_length]
  by_cases h : m.buckets.length = 0
  · simp [h]
  · simp [h]
    omega

theorem resize_entries_perm (hash : K → Nat) (m : HashMap K V) :
    (entries (resize hash m)).Perm (entries m) := by
  have hpos : 0 < (List.replicate (match m.buckets.length with
      | 0 => INITIAL_N_BUCKETS
      | n => 2 * n) ([] : List (K × V))).length := by
    rw [List.length_replicate]
    cases m.buckets.length with
    | zero => exact Nat.one_pos
    | succ n =>
      show 0 < 2 * (n + 1)
      omega
  have h := foldl_pushEntry_flatten_perm hash hpos m.buckets.flatten
  simpa [entries, resize] using h

theorem resize_placed (hash : K → Nat) (m : HashMap K V) :
    ∀ i < (resize hash m).buckets.length,
      ∀ e ∈ bucketAt (resize hash m).buckets i,
        hash e.1 % (resize hash m).buckets.length = i := by
  have hpos : 0 < (List.replicate (match m.buckets.length with
      | 0 => INITIAL_N_BUCKETS
      | n => 2 * n) ([] : List (K × V))).length := by
    rw [List.length_replicate]
    cases m.buckets.length with
    | zero => exact Nat.one_pos
    | succ n =>
      show 0 < 2 * (n + 1)
      omega
  refine foldl_pushEntry_placed hash hpos ?_ m.buckets.flatten
  intro i hi e he
  exfalso
  have : bucketAt (List.replicate (match m.buckets.length with
      | 0 => INITIAL_N_BUCKETS
      | n => 2 * n) ([] : List (K × V))) i = [] := by
    unfold bucketAt
    cases hg : (List.replicate _ ([] : List (K × V)))[i]? with
    | none => rfl
    | some b =>
      obtain ⟨hlt, hbe⟩ := List.getElem?_eq_some_iff.mp hg
      simp only [List.getElem_replicate] at hbe
      simp [← hbe]
  rw [this] at he
  simp at he

theorem resize_inv (hash : K → Nat) {m : HashMap K V} (hinv : Inv hash m) :
    Inv hash (resize hash m) := by
  refine ⟨?_, ?_, resize_placed hash m⟩
  · rw [← List.length_flatten]
    rw [resize_items, hinv.count_entries]
    exact ((resize_entries_perm hash m).length_eq).symm
  · exact ((resize_entries_perm hash m).map Prod.fst).nodup_iff.mpr hinv.nodup

/-! ## Behaviour of the growth check -/

theorem growIfNeeded_items (hash : K → Nat) (m : HashMap K V) :
    (growIfNeeded hash m).items = m.items := by
  unfold growIfNeeded
  split
  · exact resize_items hash m
  · rfl

theorem growIfNeeded_entries_perm (hash : K → Nat) (m : HashMap K V) :
    (entries (growIfNeeded hash m)).Perm (entries m) := by
  unfold growIfNeeded
  split
  · exact resize_entries_perm hash m
  · exact List.Perm.refl _

theorem growIfNeeded_length_pos (hash : K → Nat) (m : HashMap K V) :
    0 < (growIfNeeded hash m).buckets.length := by
  unfold growIfNeeded
  split
  · exact resize_length_pos hash m
  · rename_i hcond
    rcases Nat.eq_zero_or_pos m.buckets.length with h0 | hpos
    · exact absurd (Or.inl h0) hcond
    · exact hpos

theorem growIfNeeded_inv (hash : K → Nat) {m : HashMap K V} (hinv : Inv hash m) :
    Inv hash (growIfNeeded hash m) := by
  unfold growIfNeeded
  split
  · exact resize_inv hash hinv
  · exact hinv

/-! ## Assembling invariants after a bucket update -/

theorem placed_set {hash : K → Nat} {bs : List (List (K × V))} {idx : Nat}
    (hpl : ∀ i < bs.length, ∀ e ∈ bucketAt bs i, hash e.1 % bs.length = i)
    (hidx : idx < bs.length) {nb : List (K × V)}
    (hnb : ∀ e ∈ nb, e ∈ bucketAt bs idx ∨ hash e.1 % bs.length = idx) :
    ∀ i < (bs.set idx nb).length, ∀ e ∈ bucketAt (bs.set idx nb) i,
      hash e.1 % (bs.set idx nb).length = i := by
  intro i hi e he
  rw [List.length_set] at hi ⊢
  by_cases heq : idx = i
  · subst heq
    rw [bucketAt_set_self _ hidx] at he
    rcases hnb e he with hmem | hval
    · exact hpl idx hidx e hmem
    · exact hval
  · rw [bucketAt_set_ne _ heq] at he
    exact hpl i hi e he

theorem inv_of_perm {hash : K → Nat} {m' : HashMap K V} {es : List (K × V)}
    (hperm : (entries m').Perm es) (hcount : m'.items = es.length)
    (hnd : (es.map Prod.fst).Nodup)
    (hpl : ∀ i < m'.buckets.length, ∀ e ∈ bucketAt m'.buckets i,
      hash e.1 % m'.buckets.length = i) : Inv hash m' := by
  refine ⟨?_, ?_, hpl⟩
  · rw [← List.length_flatten, hcount]
    exact (hperm.length_eq).symm
  · exact (hperm.map Prod.fst).nodup_iff.mpr hnd

theorem exists_value_of_key_mem {es : List (K × V)} {k : K}
    (h : k ∈ es.map Prod.fst) : ∃ v, (k, v) ∈ es := by
  obtain ⟨e, he, hf⟩ := List.mem_map.mp h
  cases e with
  | mk a b => exact ⟨b, by rwa [show k = a from hf.symm]⟩

/-! ## Behaviour of get -/

theorem get_found {hash : K → Nat} {m : HashMap K V} (hinv : Inv hash m)
    {key : K} {v : V} (hmem : (key, v) ∈ entries m) :
    get hash m key = some (some v) := by
  have hpos := length_pos_of_mem_entries hmem
  have hidx : hash key % m.buckets.length < m.buckets.length := Nat.mod_lt _ hpos
  have hbm : (key, v) ∈ bucketAt m.buckets (hash key % m.buckets.length) :=
    mem_bucketAt_of_placed hinv.placed hmem
  have hnd := nodup_bucket_keys hinv hidx
  rw [get, bucket_idx, if_neg (Nat.pos_iff_ne_zero.mp hpos)]
  show some (((bucketAt m.buckets (hash key % m.buckets.length)).find?
    (fun e => e.1 == key)).map Prod.snd) = some (some v)
  rw [find_eq_of_nodup_keys hnd hbm]
  rfl

theorem get_fresh {hash : K → Nat} {m : HashMap K V} (hpos : 0 < m.buckets.length)
    {key : K} (hfresh : key ∉ (entries m).map Prod.fst) :
    get hash m key = some none := by
  rw [get, bucket_idx, if_neg (Nat.pos_iff_ne_zero.mp hpos)]
  show some (((bucketAt m.buckets (hash key % m.buckets.length)).find?
    (fun e => e.1 == key)).map Prod.snd) = some none
  rw [find_eq_none_of_fresh (fun e he hek =>
    hfresh (List.mem_map.mpr ⟨e, mem_flatten_of_mem_bucketAt he, hek⟩))]
  rfl

theorem mem_entries_of_get {hash : K → Nat} {m : HashMap K V} (hinv : Inv hash m)
    {key : K} {v : V} (h : get hash m key = some (some v)) :
    (key, v) ∈ entries m := by
  rw [get] at h
  cases hb : bucket_idx hash m key with
  | none => rw [hb] at h; exact absurd h (by simp)
  | some idx =>
    rw [hb] at h
    simp only [Option.some_inj] at h
    cases hf : (bucketAt m.buckets idx).find? (fun e => e.1 == key) with
    | none => rw [hf] at h; exact absurd h (by simp)
    | some e =>
      rw [hf] at h
      have hk : e.1 = key := by simpa using List.find?_some hf
      have hv : e.2 = v := by simpa using h
      have hm : e ∈ bucketAt m.buckets idx := List.mem_of_find?_eq_some hf
      have : (key, v) = e := by
        cases e with
        | mk a b =>
          simp only at hk hv
          rw [hk, hv]
      exact this ▸ mem_flatten_of_mem_bucketAt hm

/-! ## Behaviour of insert -/

theorem insert_eq_none_case (hash : K → Nat) (m : HashMap K V) (key : K) (value : V)
    (h : replaceInBucket key value (bucketAt (growIfNeeded hash m).buckets
      (hash key % (growIfNeeded hash m).buckets.length)) = none) :
    insert hash m key value = (none,
      { buckets := (growIfNeeded hash m).buckets.set
          (hash key % (growIfNeeded hash m).buckets.length)
          (bucketAt (growIfNeeded hash m).buckets
            (hash key % (growIfNeeded hash m).buckets.length) ++ [(key, value)]),
        items := (growIfNeeded hash m).items + 1 }) := by
  simp only [insert]
  rw [h]

theorem fresh_of_replaceInBucket_eq_none {key : K} {value : V} {l : List (K × V)}
    (h : replaceInBucket key value l = none) : ∀ e ∈ l, e.1 ≠ key := by
  induction l with
  | nil => simp
  | cons e t ih =>
    rw [replaceInBucket] at h
    by_cases he : e.1 = key
    · rw [if_pos he] at h
      exact absurd h (by simp)
    · rw [if_neg he] at h
      intro x hx
      rcases List.mem_cons.mp hx with hx | hx
      · exact hx ▸ he
      · cases hr : replaceInBucket key value t with
        | none => exact ih hr x hx
        | some p => rw [hr] at h; exact absurd h (by simp)

theorem insert_eq_some_case (hash : K → Nat) (m : HashMap K V) (key : K) (value : V)
    {old : V} {bucket' : List (K × V)}
    (h : replaceInBucket key value (bucketAt (growIfNeeded hash m).buckets
      (hash key % (growIfNeeded hash m).buckets.length)) = some (old, bucket')) :
    insert hash m key value = (some old,
      { buckets := (growIfNeeded hash m).buckets.set
          (hash key % (growIfNeeded hash m).buckets.length) bucket',
        items := (growIfNeeded hash m).items }) := by
  simp only [insert]
  rw [h]

theorem insert_fresh {hash : K → Nat} {m : HashMap K V} (hinv : Inv hash m)
    {key : K} (hfresh : key ∉ (entries m).map Prod.fst) (value : V) :
    (insert hash m key value).1 = none ∧
    Inv hash (insert hash m key value).2 ∧
    (insert hash m key value).2.items = m.items + 1 ∧
    (entries (insert hash m key value).2).Perm ((key, value) :: entries m) := by
  have hinv1 := growIfNeeded_inv hash hinv
  have hperm1 := growIfNeeded_entries_perm hash m
  have hitems1 := growIfNeeded_items hash m
  have hpos := growIfNeeded_length_pos hash m
  have hidx : hash key % (growIfNeeded hash m).buckets.length
      < (growIfNeeded hash m).buckets.length := Nat.mod_lt _ hpos
  have hfresh1 : key ∉ (entries (growIfNeeded hash m)).map Prod.fst := fun hc =>
    hfresh (((hperm1.map Prod.fst).mem_iff).mp hc)
  have hbfresh : ∀ e ∈ bucketAt (growIfNeeded hash m).buckets
      (hash key % (growIfNeeded hash m).buckets.length), e.1 ≠ key := by
    intro e he hek
    exact hfresh1 (List.mem_map.mpr ⟨e, mem_flatten_of_mem_bucketAt he, hek⟩)
  rw [insert_eq_none_case hash m key value (replaceInBucket_eq_none hbfresh)]
  have hperm' : ((((growIfNeeded hash m).buckets.set
      (hash key % (growIfNeeded hash m).buckets.length)
      (bucketAt (growIfNeeded hash m).buckets
        (hash key % (growIfNeeded hash m).buckets.length)
        ++ [(key, value)])).flatten)).Perm
      ((key, value) :: entries (growIfNeeded hash m)) := by
    have h1 := flatten_set_perm_root _
      (bucketAt (growIfNeeded hash m).buckets
        (hash key % (growIfNeeded hash m).buckets.length) ++ [(key, value)]) hidx
    have h2 := flatten_perm_bucketAt _ hidx
    have h3 : ((bucketAt (growIfNeeded hash m).buckets
        (hash key % (growIfNeeded hash m).buckets.length) ++ [(key, value)])
        ++ ((growIfNeeded hash m).buckets.set
          (hash key % (growIfNeeded hash m).buckets.length) []).flatten).Perm
        ((key, value) :: (bucketAt (growIfNeeded hash m).buckets
          (hash key % (growIfNeeded hash m).buckets.length)
          ++ ((growIfNeeded hash m).buckets.set
            (hash key % (growIfNeeded hash m).buckets.length) []).flatten)) := by
      have := (List.perm_append_singleton (key, value)
        (bucketAt (growIfNeeded hash m).buckets
          (hash key % (growIfNeeded hash m).buckets.length))).append_right
          (((growIfNeeded hash m).buckets.set
            (hash key % (growIfNeeded hash m).buckets.length) []).flatten)
      simp only [List.append_assoc] at this
      simpa using this
    exact (h1.trans h3).trans (h2.symm.cons (key, value))
  have hpermm : ((((growIfNeeded hash m).buckets.set
      (hash key % (growIfNeeded hash m).buckets.length)
      (bucketAt (growIfNeeded hash m).buckets
        (hash key % (growIfNeeded hash m).buckets.length)
        ++ [(key, value)])).flatten)).Perm ((key, value) :: entries m) :=
    hperm'.trans (hperm1.cons (key, value))
  refine ⟨rfl, ?_, ?_, hpermm⟩
  · refine inv_of_perm hpermm ?_ ?_ ?_
    · show (growIfNeeded hash m).items + 1 = ((key, value) :: entries m).length
      rw [List.length_cons, hitems1]
      rw [hinv.count_entries]
    · rw [List.map_cons]
      exact List.nodup_cons.mpr ⟨hfresh, hinv.nodup⟩
    · show ∀ i < ((growIfNeeded hash m).buckets.set _ _).length, _
      refine placed_set hinv1.placed hidx ?_
      intro e he
      rcases List.mem_append.mp he with he | he
      · exact Or.inl he
      · rw [List.mem_singleton.mp he]
        exact Or.inr rfl
  · show (growIfNeeded hash m).items + 1 = m.items + 1
    rw [hitems1]

theorem insert_found {hash : K → Nat} {m : HashMap K V} (hinv : Inv hash m)
    {key : K} {w : V} (hmem : (key, w) ∈ entries m) (value : V) :
    (insert hash m key value).1 = some w ∧
    Inv hash (insert hash m key value).2 ∧
    (insert hash m key value).2.items = m.items ∧
    ∃ es', (entries m).Perm ((key, w) :: es') ∧
      (entries (insert hash m key value).2).Perm ((key, value) :: es') ∧
      key ∉ es'.map Prod.fst := by
  have hinv1 := growIfNeeded_inv hash hinv
  have hperm1 := growIfNeeded_entries_perm hash m
  have hitems1 := growIfNeeded_items hash m
  have hpos := growIfNeeded_length_pos hash m
  have hidx : hash key % (growIfNeeded hash m).buckets.length
      < (growIfNeeded hash m).buckets.length := Nat.mod_lt _ hpos
  have hmem1 : (key, w) ∈ entries (growIfNeeded hash m) := hperm1.mem_iff.mpr hmem
  have hbm : (key, w) ∈ bucketAt (growIfNeeded hash m).buckets
      (hash key % (growIfNeeded hash m).buckets.length) :=
    mem_bucketAt_of_placed hinv1.placed hmem1
  cases hr : replaceInBucket key value (bucketAt (growIfNeeded hash m).buckets
      (hash key % (growIfNeeded hash m).buckets.length)) with
  | none =>
    exact absurd rfl (fresh_of_replaceInBucket_eq_none hr (key, w) hbm)
  | some p =>
    obtain ⟨old, bucket'⟩ := p
    obtain ⟨front, rest, e0, hbdecomp, hk, hw, hb', hfrontfree⟩ :=
      replaceInBucket_eq_some hr
    have he0mem : e0 ∈ bucketAt (growIfNeeded hash m).buckets
        (hash key % (growIfNeeded hash m).buckets.length) := by
      rw [hbdecomp]
      exact List.mem_append.mpr (Or.inr (List.mem_cons_self e0 rest))
    have he0pair : (key, old) = e0 := by
      cases e0 with
      | mk a b =>
        simp only at hk hw
        rw [hk, hw]
    have hwold : old = w :=
      value_eq_of_nodup_keys hinv1.nodup
        (he0pair ▸ mem_flatten_of_mem_bucketAt he0mem) hmem1
    rw [insert_eq_some_case hash m key value hr]
    set m1 := growIfNeeded hash m with hm1
    set idx := hash key % m1.buckets.length with hidxd
    have h2 := flatten_perm_bucketAt (m1.buckets) hidx
    have h1 := flatten_set_perm_root (m1.buckets) bucket' hidx
    set G := (m1.buckets.set idx []).flatten with hGd
    have hperm0 : (entries m1).Perm ((key, w) :: (front ++ rest ++ G)) := by
      refine h2.trans ?_
      rw [hbdecomp]
      have heq : (front ++ e0 :: rest) ++ G = front ++ e0 :: (rest ++ G) := by
        simp [List.append_assoc]
      rw [heq]
      refine List.perm_middle.trans ?_
      rw [← he0pair, hwold, ← List.append_assoc]
    have hpermnew : ((m1.buckets.set idx bucket').flatten).Perm
        ((key, value) :: (front ++ rest ++ G)) := by
      refine h1.trans ?_
      rw [hb', hk]
      have heq : (front ++ (key, value) :: rest) ++ G
          = front ++ (key, value) :: (rest ++ G) := by
        simp [List.append_assoc]
      rw [heq]
      refine List.perm_middle.trans ?_
      rw [← List.append_assoc]
    have hnd0 := (hperm0.map Prod.fst).nodup_iff.mp hinv1.nodup
    rw [List.map_cons] at hnd0
    refine ⟨by rw [hwold], ?_, hitems1, front ++ rest ++ G,
      hperm1.symm.trans hperm0, hpermnew, (List.nodup_cons.mp hnd0).1⟩
    refine inv_of_perm hpermnew ?_ ?_ ?_
    · show m1.items = _
      rw [hinv1.count_entries, hperm0.length_eq, List.length_cons, List.length_cons]
    · rw [List.map_cons]
      exact List.nodup_cons.mpr ⟨(List.nodup_cons.mp hnd0).1, (List.nodup_cons.mp hnd0).2⟩
    · show ∀ i < (m1.buckets.set idx bucket').length, ∀ e ∈ bucketAt
        (m1.buckets.set idx bucket') i, hash e.1 % (m1.buckets.set idx bucket').length = i
      refine placed_set hinv1.placed hidx ?_
      intro e he
      rw [hb'] at he
      rcases List.mem_append.mp he with he | he
      · refine Or.inl ?_
        rw [hbdecomp]
        exact List.mem_append.mpr (Or.inl he)
      · rcases List.mem_cons.mp he with he | he
        · rw [he]
          refine Or.inr ?_
          show hash e0.1 % m1.buckets.length = idx
          rw [hk]
        · refine Or.inl ?_
          rw [hbdecomp]
          exact List.mem_append.mpr (Or.inr (List.mem_cons_of_mem e0 he))

/-! ## Behaviour of remove -/

theorem remove_fresh {hash : K → Nat} {m : HashMap K V} (hpos : 0 < m.buckets.length)
    {key : K} (hfresh : key ∉ (entries m).map Prod.fst) :
    remove hash m key = some (none, m) := by
  have hb : bucket_idx hash m key = some (hash key % m.buckets.length) := by
    rw [bucket_idx, if_neg (Nat.pos_iff_ne_zero.mp hpos)]
  have hp : position key (bucketAt m.buckets (hash key % m.buckets.length)) = none :=
    position_eq_none.mpr (fun e he hek =>
      hfresh (List.mem_map.mpr ⟨e, mem_flatten_of_mem_bucketAt he, hek⟩))
  simp only [remove, hb, hp]

theorem remove_found {hash : K → Nat} {m : HashMap K V} (hinv : Inv hash m)
    {key : K} {v : V} (hmem : (key, v) ∈ entries m) :
    ∃ m', remove hash m key = some (some v, m') ∧ Inv hash m' ∧
      m'.items + 1 = m.items ∧ m'.buckets.length = m.buckets.length ∧
      (entries m).Perm ((key, v) :: entries m') ∧
      key ∉ (entries m').map Prod.fst := by
  have hpos := length_pos_of_mem_entries hmem
  have hidx : hash key % m.buckets.length < m.buckets.length := Nat.mod_lt _ hpos
  have hb : bucket_idx hash m key = some (hash key % m.buckets.length) := by
    rw [bucket_idx, if_neg (Nat.pos_iff_ne_zero.mp hpos)]
  have hbm : (key, v) ∈ bucketAt m.buckets (hash key % m.buckets.length) :=
    mem_bucketAt_of_placed hinv.placed hmem
  cases hp : position key (bucketAt m.buckets (hash key % m.buckets.length)) with
  | none => exact absurd rfl (position_eq_none.mp hp (key, v) hbm)
  | some i =>
    obtain ⟨e0, hie, hk⟩ := position_getElem hp
    have he0mem : e0 ∈ bucketAt m.buckets (hash key % m.buckets.length) := by
      obtain ⟨hlt, heq⟩ := List.getElem?_eq_some_iff.mp hie
      exact heq ▸ List.getElem_mem hlt
    have he0pair : (key, e0.2) = e0 := by
      cases e0 with
      | mk a b =>
        simp only at hk
        rw [hk]
    have hkeymem : (key, e0.2) ∈ entries m := by
      rw [he0pair]
      exact mem_flatten_of_mem_bucketAt he0mem
    have hv : e0.2 = v := value_eq_of_nodup_keys hinv.nodup hkeymem hmem
    have he0v : (key, v) = e0 := by rw [← hv]; exact he0pair
    have hswp := swapRemove_perm hie
    set G := (m.buckets.set (hash key % m.buckets.length) []).flatten with hGd
    have h2 := flatten_perm_bucketAt (m.buckets) hidx
    have h1 := flatten_set_perm_root (m.buckets)
      (swapRemove (bucketAt m.buckets (hash key % m.buckets.length)) i) hidx
    have hpermm : (entries m).Perm ((key, v) ::
        ((m.buckets.set (hash key % m.buckets.length)
          (swapRemove (bucketAt m.buckets (hash key % m.buckets.length)) i)).flatten)) := by
      refine h2.trans ?_
      refine ((hswp.symm.append_right G).trans ?_).trans
        ((h1.symm.cons e0).trans ?_)
      · show ((e0 :: swapRemove (bucketAt m.buckets (hash key % m.buckets.length)) i)
          ++ G).Perm (e0 :: (swapRemove (bucketAt m.buckets (hash key % m.buckets.length)) i ++ G))
        rw [List.cons_append]
      · rw [← he0v]
    have hlen : m.items = ((m.buckets.set (hash key % m.buckets.length)
        (swapRemove (bucketAt m.buckets (hash key % m.buckets.length)) i)).flatten).length
        + 1 := by
      rw [hinv.count_entries, hpermm.length_eq, List.length_cons]
    have hndm := (hpermm.map Prod.fst).nodup_iff.mp hinv.nodup
    rw [List.map_cons] at hndm
    refine ⟨⟨m.buckets.set (hash key % m.buckets.length)
        (swapRemove (bucketAt m.buckets (hash key % m.buckets.length)) i),
      m.items - 1⟩, ?_, ⟨?_, ?_, ?_⟩, ?_, ?_, hpermm, (List.nodup_cons.mp hndm).1⟩
    · simp only [remove, hb, hp, hie]
      rw [hv]
    · show m.items - 1 = ((m.buckets.set (hash key % m.buckets.length)
        (swapRemove (bucketAt m.buckets (hash key % m.buckets.length)) i)).map
          List.length).sum
      rw [← List.length_flatten]
      omega
    · exact (List.nodup_cons.mp hndm).2
    · show ∀ i' < (m.buckets.set (hash key % m.buckets.length)
        (swapRemove (bucketAt m.buckets (hash key % m.buckets.length)) i)).length, _
      refine placed_set hinv.placed hidx ?_
      intro e he
      exact Or.inl (hswp.mem_iff.mp (List.mem_cons_of_mem e0 he))
    · show m.items - 1 + 1 = m.items
      omega
    · exact List.length_set m.buckets _ _

/-! ## Reachable tables -/

/-- The tables obtainable from HashMap::new by insert and (non-panicking)
remove calls. -/
inductive Reachable (hash : K → Nat) : HashMap K V → Prop where
  | base : Reachable hash new
  | ins (m : HashMap K V) (key : K) (value : V) :
      Reachable hash m → Reachable hash (insert hash m key value).2
  | rem (m : HashMap K V) (key : K) (r : Option V) (m' : HashMap K V) :
      Reachable hash m → remove hash m key = some (r, m') → Reachable hash m'

theorem new_inv (hash : K → Nat) : Inv hash (new : HashMap K V) := by
  refine ⟨rfl, List.nodup_nil, ?_⟩
  intro i hi e he
  simp [new] at hi

theorem insert_inv {hash : K → Nat} {m : HashMap K V} (hinv : Inv hash m)
    (key : K) (value : V) : Inv hash (insert hash m key value).2 := by
  by_cases hk : key ∈ (entries m).map Prod.fst
  · obtain ⟨w, hw⟩ := exists_value_of_key_mem hk
    exact (insert_found hinv hw value).2.1
  · exact (insert_fresh hinv hk value).2.1

theorem remove_inv {hash : K → Nat} {m : HashMap K V} (hinv : Inv hash m)
    {key : K} {r : Option V} {m' : HashMap K V}
    (h : remove hash m key = some (r, m')) : Inv hash m' := by
  rcases Nat.eq_zero_or_pos m.buckets.length with h0 | hpos
  · rw [remove, bucket_idx, if_pos h0] at h
    exact absurd h (by simp)
  · by_cases hk : key ∈ (entries m).map Prod.fst
    · obtain ⟨v, hv⟩ := exists_value_of_key_mem hk
      obtain ⟨m'', heq, hinv'', -, -, -, -⟩ := remove_found hinv hv
      have hsame := heq.symm.trans h
      injection hsame with hpair
      injection hpair with hfst hsnd
      rw [← hsnd]
      exact hinv''
    · have hsame := (remove_fresh hpos hk).symm.trans h
      injection hsame with hpair
      injection hpair with hfst hsnd
      rw [← hsnd]
      exact hinv

theorem reach_inv {hash : K → Nat} {m : HashMap K V} (h : Reachable hash m) :
    Inv hash m := by
  induction h with
  | base => exact new_inv hash
  | ins m key value hr ih => exact insert_inv ih key value
  | rem m key r m' hr heq ih => exact remove_inv ih heq

end HashMap

namespace HashMap

variable {K V : Type} [DecidableEq K]

/-! ## Structural facts used by the load-factor and safety claims -/

theorem growIfNeeded_length (hash : K → Nat) (m : HashMap K V) :
    (growIfNeeded hash m).buckets.length
      = if m.buckets.length = 0 ∨ m.items > 3 * m.buckets.length / 4
        then (if m.buckets.length = 0 then 1 else 2 * m.buckets.length)
        else m.buckets.length := by
  unfold growIfNeeded
  split
  · exact resize_length hash m
  · rfl

theorem insert_buckets_length (hash : K → Nat) (m : HashMap K V) (key : K)
    (value : V) :
    (insert hash m key value).2.buckets.length
      = (growIfNeeded hash m).buckets.length := by
  cases hr : replaceInBucket key value (bucketAt (growIfNeeded hash m).buckets
      (hash key % (growIfNeeded hash m).buckets.length)) with
  | none =>
    rw [insert_eq_none_case hash m key value hr]
    exact List.length_set _ _ _
  | some p =>
    obtain ⟨old, bucket'⟩ := p
    rw [insert_eq_some_case hash m key value hr]
    exact List.length_set _ _ _

theorem remove_cases {hash : K → Nat} {m : HashMap K V} {key : K}
    {r : Option V} {m' : HashMap K V} (h : remove hash m key = some (r, m')) :
    m.buckets.length ≠ 0 ∧
    ((r = none ∧ m' = m) ∨
     (∃ i e0, position key (bucketAt m.buckets (hash key % m.buckets.length))
          = some i ∧
        (bucketAt m.buckets (hash key % m.buckets.length))[i]? = some e0 ∧
        r = some e0.2 ∧
        m' = ⟨m.buckets.set (hash key % m.buckets.length)
          (swapRemove (bucketAt m.buckets (hash key % m.buckets.length)) i),
          m.items - 1⟩)) := by
  rcases Nat.eq_zero_or_pos m.buckets.length with h0 | hpos
  · rw [remove, bucket_idx, if_pos h0] at h
    exact absurd h (by simp)
  · have hb : bucket_idx hash m key = some (hash key % m.buckets.length) := by
      rw [bucket_idx, if_neg (Nat.pos_iff_ne_zero.mp hpos)]
    refine ⟨Nat.pos_iff_ne_zero.mp hpos, ?_⟩
    simp only [remove, hb] at h
    cases hp : position key (bucketAt m.buckets (hash key % m.buckets.length)) with
    | none =>
      simp only [hp, Option.some_inj] at h
      left
      exact ⟨congrArg Prod.fst h.symm, congrArg Prod.snd h.symm⟩
    | some i =>
      simp only [hp] at h
      cases hie : (bucketAt m.buckets (hash key % m.buckets.length))[i]? with
      | none =>
        simp only [hie] at h
        exact absurd h (by simp)
      | some e0 =>
        simp only [hie, Option.some_inj] at h
        right
        exact ⟨i, e0, rfl, hie, congrArg Prod.fst h.symm, congrArg Prod.snd h.symm⟩

theorem remove_isSome {hash : K → Nat} {m : HashMap K V} (hpos : 0 < m.buckets.length)
    (key : K) : (remove hash m key).isSome = true := by
  have hb : bucket_idx hash m key = some (hash key % m.buckets.length) := by
    rw [bucket_idx, if_neg (Nat.pos_iff_ne_zero.mp hpos)]
  cases hp : position key (bucketAt m.buckets (hash key % m.buckets.length)) with
  | none => simp [remove, hb, hp]
  | some i =>
    obtain ⟨e0, hie, -⟩ := position_getElem hp
    simp [remove, hb, hp, hie]

theorem get_isSome {hash : K → Nat} {m : HashMap K V} (hpos : 0 < m.buckets.length)
    (key : K) : (get hash m key).isSome = true := by
  have hb : bucket_idx hash m key = some (hash key % m.buckets.length) := by
    rw [bucket_idx, if_neg (Nat.pos_iff_ne_zero.mp hpos)]
  simp [get, hb]

theorem contains_key_isSome {hash : K → Nat} {m : HashMap K V}
    (hpos : 0 < m.buckets.length) (key : K) :
    (contains_key hash m key).isSome = true := by
  have hb : bucket_idx hash m key = some (hash key % m.buckets.length) := by
    rw [bucket_idx, if_neg (Nat.pos_iff_ne_zero.mp hpos)]
  simp [contains_key, hb]

/-! ## The count bookkeeping on its own -/

/-- The item counter agrees with the bucket contents: items equals the sum of
the bucket lengths. -/
def count_ok (m : HashMap K V) : Prop :=
  m.items = (m.buckets.map List.length).sum

theorem count_ok_iff {m : HashMap K V} :
    count_ok m ↔ m.items = (entries m).length := by
  rw [count_ok, entries, List.length_flatten]

theorem resize_count_ok {hash : K → Nat} {m : HashMap K V} (h : count_ok m) :
    count_ok (resize hash m) := by
  rw [count_ok_iff] at h ⊢
  rw [resize_items, (resize_entries_perm hash m).length_eq, h]

theorem growIfNeeded_count_ok (hash : K → Nat) {m : HashMap K V} (h : count_ok m) :
    count_ok (growIfNeeded hash m) := by
  unfold growIfNeeded
  split
  · exact resize_count_ok h
  · exact h

theorem insert_count_ok {hash : K → Nat} {m : HashMap K V} (h : count_ok m)
    (key : K) (value : V) : count_ok (insert hash m key value).2 := by
  have h1 := growIfNeeded_count_ok hash h
  have hpos := growIfNeeded_length_pos hash m
  have hidx : hash key % (growIfNeeded hash m).buckets.length
      < (growIfNeeded hash m).buckets.length := Nat.mod_lt _ hpos
  rw [count_ok_iff] at h1
  cases hr : replaceInBucket key value (bucketAt (growIfNeeded hash m).buckets
      (hash key % (growIfNeeded hash m).buckets.length)) with
  | none =>
    rw [insert_eq_none_case hash m key value hr, count_ok_iff]
    have hperm := flatten_set_perm_root ((growIfNeeded hash m).buckets)
      (bucketAt (growIfNeeded hash m).buckets
        (hash key % (growIfNeeded hash m).buckets.length) ++ [(key, value)]) hidx
    have hsplit := flatten_perm_bucketAt ((growIfNeeded hash m).buckets) hidx
    show (growIfNeeded hash m).items + 1 = (((growIfNeeded hash m).buckets.set
      (hash key % (growIfNeeded hash m).buckets.length)
      (bucketAt (growIfNeeded hash m).buckets
        (hash key % (growIfNeeded hash m).buckets.length) ++ [(key, value)])).flatten).length
    rw [hperm.length_eq, h1, show (entries (growIfNeeded hash m)).length
      = ((bucketAt (growIfNeeded hash m).buckets
          (hash key % (growIfNeeded hash m).buckets.length))
        ++ (((growIfNeeded hash m).buckets.set
          (hash key % (growIfNeeded hash m).buckets.length) []).flatten)).length
      from hsplit.length_eq]
    simp [List.length_append]
    omega
  | some p =>
    obtain ⟨old, bucket'⟩ := p
    obtain ⟨front, rest, e0, hbdecomp, -, -, hb', -⟩ := replaceInBucket_eq_some hr
    rw [insert_eq_some_case hash m key value hr, count_ok_iff]
    have hperm := flatten_set_perm_root ((growIfNeeded hash m).buckets)
      bucket' hidx
    have hsplit := flatten_perm_bucketAt ((growIfNeeded hash m).buckets) hidx
    show (growIfNeeded hash m).items = (((growIfNeeded hash m).buckets.set
      (hash key % (growIfNeeded hash m).buckets.length) bucket').flatten).length
    rw [hperm.length_eq, h1, show (entries (growIfNeeded hash m)).length
      = ((bucketAt (growIfNeeded hash m).buckets
          (hash key % (growIfNeeded hash m).buckets.length))
        ++ (((growIfNeeded hash m).buckets.set
          (hash key % (growIfNeeded hash m).buckets.length) []).flatten)).length
      from hsplit.length_eq]
    rw [hbdecomp, hb']
    simp [List.length_append]

theorem remove_count_ok {hash : K → Nat} {m : HashMap K V} (h : count_ok m)
    {key : K} {r : Option V} {m' : HashMap K V}
    (heq : remove hash m key = some (r, m')) : count_ok m' := by
  obtain ⟨hne, hcases⟩ := remove_cases heq
  rcases hcases with ⟨-, rfl⟩ | ⟨i, e0, hp, hie, -, rfl⟩
  · exact h
  · have hpos : 0 < m.buckets.length := Nat.pos_of_ne_zero hne
    have hidx : hash key % m.buckets.length < m.buckets.length := Nat.mod_lt _ hpos
    have hsplit := flatten_perm_bucketAt (m.buckets) hidx
    have hswp := swapRemove_perm hie
    have hperm := flatten_set_perm_root (m.buckets)
      (swapRemove (bucketAt m.buckets (hash key % m.buckets.length)) i) hidx
    rw [count_ok_iff] at h
    rw [count_ok_iff]
    show m.items - 1 = ((m.buckets.set (hash key % m.buckets.length)
      (swapRemove (bucketAt m.buckets (hash key % m.buckets.length)) i)).flatten).length
    rw [hperm.length_eq, h, show (entries m).length
      = ((bucketAt m.buckets (hash key % m.buckets.length))
        ++ ((m.buckets.set (hash key % m.buckets.length) []).flatten)).length
      from hsplit.length_eq]
    have hlen : (swapRemove (bucketAt m.buckets (hash key % m.buckets.length)) i).length + 1
        = (bucketAt m.buckets (hash key % m.buckets.length)).length := by
      simpa using hswp.length_eq
    simp only [List.length_append]
    omega

/-! ## Round-trip insertion of a list of distinct keys -/

/-- Insert a list of pairs, left to right, into a fresh table. -/
def insertAll (hash : K → Nat) (l : List (K × V)) : HashMap K V :=
  l.foldl (fun acc e => (insert hash acc e.1 e.2).2) new

theorem insertAll_aux {hash : K → Nat} :
    ∀ (l : List (K × V)) (m : HashMap K V), Inv hash m →
      (∀ k, k ∈ (entries m).map Prod.fst → k ∉ l.map Prod.fst) →
      (l.map Prod.fst).Nodup →
      Inv hash (l.foldl (fun acc e => (insert hash acc e.1 e.2).2) m) ∧
      (entries (l.foldl (fun acc e => (insert hash acc e.1 e.2).2) m)).Perm
        (entries m ++ l) ∧
      (l.foldl (fun acc e => (insert hash acc e.1 e.2).2) m).items
        = m.items + l.length := by
  intro l
  induction l with
  | nil =>
    intro m hinv hdisj hnd
    exact ⟨hinv, by simp, by simp⟩
  | cons e t ih =>
    intro m hinv hdisj hnd
    rw [List.map_cons, List.nodup_cons] at hnd
    have hfresh : e.1 ∉ (entries m).map Prod.fst := by
      intro hc
      exact hdisj e.1 hc (by rw [List.map_cons]; exact List.mem_cons_self _ _)
    obtain ⟨-, hinv₂, hitems₂, hperm₂⟩ := insert_fresh hinv hfresh e.2
    have hepair : ((e.1, e.2) : K × V) = e := rfl
    rw [hepair] at hperm₂
    have hdisj₂ : ∀ k, k ∈ (entries (insert hash m e.1 e.2).2).map Prod.fst →
        k ∉ t.map Prod.fst := by
      intro k hk
      have hk' := ((hperm₂.map Prod.fst).mem_iff).mp hk
      rw [List.map_cons] at hk'
      rcases List.mem_cons.mp hk' with hk' | hk'
      · rw [hk']
        exact hnd.1
      · intro hc
        exact hdisj k hk' (by rw [List.map_cons]; exact List.mem_cons_of_mem _ hc)
    obtain ⟨hinvf, hpermf, hitemsf⟩ := ih (insert hash m e.1 e.2).2 hinv₂ hdisj₂ hnd.2
    rw [List.foldl_cons]
    refine ⟨hinvf, ?_, ?_⟩
    · refine hpermf.trans ?_
      refine ((hperm₂.append_right t).trans ?_)
      show (e :: entries m ++ t).Perm (entries m ++ e :: t)
      rw [List.cons_append]
      exact List.perm_middle.symm
    · rw [hitemsf, hitems₂, List.length_cons]
      omega

end HashMap

/-! ## The iterator yields exactly the remaining entries -/

section IterLemmas

open HashMap

variable {K V : Type}

theorem flatten_drop_succ (bs : List (List (K × V))) (j : Nat) :
    (bs.drop j).flatten = bucketAt bs j ++ (bs.drop (j + 1)).flatten := by
  rcases Nat.lt_or_ge j bs.length with h | h
  · rw [List.drop_eq_getElem_cons h, List.flatten_cons]
    congr 1
    simp [bucketAt, List.getElem?_eq_getElem h]
  · rw [List.drop_eq_nil_of_le h, List.drop_eq_nil_of_le (by omega), bucketAt_of_le h]
    simp

theorem remainingFrom_exhausted {bs : List (List (K × V))} {cb : Nat}
    (h : bs.length ≤ cb) (ci : Nat) : remainingFrom bs cb ci = [] := by
  rw [remainingFrom, bucketAt_of_le h, List.drop_nil, List.nil_append,
    List.drop_eq_nil_of_le (by omega), List.flatten_nil]

theorem remainingFrom_zero_zero (bs : List (List (K × V))) :
    remainingFrom bs 0 0 = bs.flatten := by
  rw [remainingFrom, List.drop_zero]
  have := (flatten_drop_succ bs 0).symm
  rw [List.drop_zero] at this
  exact this

/-- One call to HashIter::next, related to the remaining-entries view: a none
result means nothing is left, and a some result peels off exactly the head of
the remaining sequence. -/
theorem next_step (n : Nat) :
    ∀ it : HashIter K V, it.map.buckets.length - it.current_bucket ≤ n →
      (it.next = none ∧
        remainingFrom it.map.buckets it.current_bucket it.current_item = []) ∨
      (∃ e it', it.next = some (e, it') ∧ it'.map = it.map ∧
        remainingFrom it.map.buckets it.current_bucket it.current_item
          = e :: remainingFrom it'.map.buckets it'.current_bucket it'.current_item) := by
  induction n with
  | zero =>
    intro it hle
    have hcb : it.map.buckets.length ≤ it.current_bucket := by omega
    have hnone : it.map.buckets[it.current_bucket]? = none :=
      List.getElem?_eq_none_iff.mpr hcb
    left
    refine ⟨?_, remainingFrom_exhausted hcb _⟩
    rw [HashIter.next.eq_def]
    split
    · rfl
    · rename_i bucket heq
      rw [hnone] at heq
      exact absurd heq (by simp)
  | succ n ih =>
    intro it hle
    cases hcb : it.map.buckets[it.current_bucket]? with
    | none =>
      have hcb' : it.map.buckets.length ≤ it.current_bucket :=
        List.getElem?_eq_none_iff.mp hcb
      left
      refine ⟨?_, remainingFrom_exhausted hcb' _⟩
      rw [HashIter.next.eq_def]
      split
      · rfl
      · rename_i bucket heq
        rw [hcb] at heq
        exact absurd heq (by simp)
    | some bucket =>
      have hlt : it.current_bucket < it.map.buckets.length :=
        (List.getElem?_eq_some_iff.mp hcb).1
      have hat : bucketAt it.map.buckets it.current_bucket = bucket := by
        simp [bucketAt, hcb]
      cases hci : bucket[it.current_item]? with
      | some e =>
        right
        refine ⟨e, ⟨it.map, it.current_bucket, it.current_item + 1⟩, ?_, rfl, ?_⟩
        · rw [HashIter.next.eq_def]
          split
          · rename_i heq
            rw [hcb] at heq
            exact absurd heq (by simp)
          · rename_i bucket' heq
            rw [hcb] at heq
            have hb : bucket' = bucket := by
              have := heq
              simp only [Option.some_inj] at this
              exact this.symm
            subst hb
            rw [hci]
        · show remainingFrom it.map.buckets it.current_bucket it.current_item
            = e :: remainingFrom it.map.buckets it.current_bucket (it.current_item + 1)
          rw [remainingFrom, remainingFrom, hat]
          obtain ⟨hlt', he⟩ := List.getElem?_eq_some_iff.mp hci
          rw [List.drop_eq_getElem_cons hlt', he]
          rfl
      | none =>
        have hci' : bucket.length ≤ it.current_item :=
          List.getElem?_eq_none_iff.mp hci
        have hnexteq : it.next = HashIter.next ⟨it.map, it.current_bucket + 1, 0⟩ := by
          rw [HashIter.next.eq_def]
          split
          · rename_i heq
            rw [hcb] at heq
            exact absurd heq (by simp)
          · rename_i bucket' heq
            rw [hcb] at heq
            have hb : bucket' = bucket := by
              simp only [Option.some_inj] at heq
              exact heq.symm
            subst hb
            rw [hci]
        have hremeq : remainingFrom it.map.buckets it.current_bucket it.current_item
            = remainingFrom it.map.buckets (it.current_bucket + 1) 0 := by
          rw [remainingFrom, remainingFrom, hat,
            List.drop_eq_nil_of_le hci', List.nil_append, List.drop_zero]
          exact flatten_drop_succ it.map.buckets (it.current_bucket + 1)
        have hle' : it.map.buckets.length - (it.current_bucket + 1) ≤ n := by omega
        rcases ih ⟨it.map, it.current_bucket + 1, 0⟩ hle' with ⟨hn, hrem⟩ |
          ⟨e, it', hn, hmap, hrem⟩
        · left
          exact ⟨hnexteq.trans hn, hremeq.trans hrem⟩
        · right
          exact ⟨e, it', hnexteq.trans hn, hmap, hremeq.trans hrem⟩

/-- Models collecting every remaining yield of the iterator: repeated calls
to HashIter::next until it returns None. -/
def HashIter.toList (it : HashIter K V) : List (K × V) :=
  match h : it.next with
  | none => []
  | some (e, it') => e :: it'.toList
  termination_by
    (remainingFrom it.map.buckets it.current_bucket it.current_item).length
  decreasing_by
    rcases next_step (it.map.buckets.length - it.current_bucket) it (Nat.le_refl _)
      with ⟨hn, -⟩ | ⟨e₀, it'₀, hn, hmap, hrem⟩
    · rw [hn] at h
      exact absurd h (by simp)
    · rw [hn] at h
      injection h with h1
      injection h1 with h2 h3
      subst h2
      subst h3
      rw [hrem]
      simp

theorem toList_eq_aux :
    ∀ (n : Nat) (it : HashIter K V),
      (remainingFrom it.map.buckets it.current_bucket it.current_item).length ≤ n →
      it.toList = remainingFrom it.map.buckets it.current_bucket it.current_item := by
  intro n
  induction n with
  | zero =>
    intro it hle
    rcases next_step (it.map.buckets.length - it.current_bucket) it (Nat.le_refl _)
      with ⟨hn, hrem⟩ | ⟨e, it', hn, hmap, hrem⟩
    · rw [hrem, HashIter.toList.eq_def]
      split
      · rfl
      · rename_i e it'' heq
        rw [hn] at heq
        exact absurd heq (by simp)
    · rw [hrem] at hle
      simp at hle
  | succ n ih =>
    intro it hle
    rcases next_step (it.map.buckets.length - it.current_bucket) it (Nat.le_refl _)
      with ⟨hn, hrem⟩ | ⟨e, it', hn, hmap, hrem⟩
    · rw [hrem, HashIter.toList.eq_def]
      split
      · rfl
      · rename_i e it'' heq
        rw [hn] at heq
        exact absurd heq (by simp)
    · rw [hrem, HashIter.toList.eq_def]
      split
      · rename_i heq
        rw [hn] at heq
        exact absurd heq (by simp)
      · rename_i e₁ it₁ heq
        rw [hn] at heq
        injection heq with h1
        injection h1 with h2 h3
        subst h2
        subst h3
        have hlen : (remainingFrom it'.map.buckets it'.current_bucket
            it'.current_item).length ≤ n := by
          rw [hrem] at hle
          simpa using Nat.lt_succ_iff.mp (Nat.lt_of_lt_of_le (by simp) hle)
        rw [ih it' hlen]

theorem HashIter.toList_eq (it : HashIter K V) :
    it.toList = remainingFrom it.map.buckets it.current_bucket it.current_item :=
  toList_eq_aux _ it (Nat.le_refl _)

/-- A fresh iterator over a table yields exactly the stored entries in
bucket-then-item order. -/
theorem toList_new (m : HashMap K V) :
    (HashIter.new m).toList = HashMap.entries m := by
  rw [HashIter.toList_eq]
  show remainingFrom m.buckets 0 0 = _
  rw [remainingFrom_zero_zero]
  rfl

end IterLemmas

/-! ## The claims -/

section Claims

open HashMap

variable {K V : Type} [DecidableEq K]

/-- C1 (code bug in src/lib.rs): on a freshly constructed table, len() is 0,
is_empty() holds and iteration yields nothing, but get and remove do not
return not-found: get, remove and contains_key call bucket_idx
unconditionally, and with zero buckets bucket_idx computes the u64 remainder
hash % 0, which panics in Rust (modelled as the outer none) — instead of the
claimed guarded not-found return that skips the index computation. -/
theorem c1_empty_table_code_bug :
    (new : HashMap Nat Nat).len = 0 ∧
    (new : HashMap Nat Nat).is_empty = true ∧
    (HashIter.new (new : HashMap Nat Nat)).toList = [] ∧
    bucket_idx (fun n => n) (new : HashMap Nat Nat) 0 = none ∧
    get (fun n => n) (new : HashMap Nat Nat) 0 = none ∧
    remove (fun n => n) (new : HashMap Nat Nat) 0 = none := by
  refine ⟨rfl, rfl, ?_, rfl, rfl, rfl⟩
  rw [toList_new]
  rfl

/-- C2: inserting a sequence of pairs with pairwise-distinct keys into a
fresh table makes every inserted key retrievable with its value, len() equals
the number of pairs, and the stored entries are exactly the inserted pairs up
to order — no entry is lost or duplicated, however many resizes happened. -/
theorem c2_insert_get_round_trip (hash : K → Nat) (l : List (K × V))
    (hnd : (l.map Prod.fst).Nodup) :
    (∀ e ∈ l, get hash (insertAll hash l) e.1 = some (some e.2)) ∧
    (insertAll hash l).len = l.length ∧
    (entries (insertAll hash l)).Perm l := by
  have hkeys : ∀ k, k ∈ ((entries (new : HashMap K V)).map Prod.fst) →
      k ∉ l.map Prod.fst := by
    intro k hk
    simp [entries, new] at hk
  obtain ⟨hinv, hperm, hitems⟩ := insertAll_aux l new (new_inv hash) hkeys hnd
  have hperm' : (entries (insertAll hash l)).Perm l := by
    refine hperm.trans ?_
    show (([] : List (K × V)) ++ l).Perm l
    rw [List.nil_append]
  refine ⟨fun e he => get_found hinv (hperm'.mem_iff.mpr he), ?_, hperm'⟩
  show (insertAll hash l).items = l.length
  rw [show (insertAll hash l).items = (new : HashMap K V).items + l.length from hitems]
  show 0 + l.length = l.length
  omega

/-- Witness for C2 at a concrete input. -/
theorem c2_witness :
    (∀ e ∈ [((0 : Nat), (10 : Nat)), (1, 11), (5, 12)],
      get (fun n => n) (insertAll (fun n => n) [((0 : Nat), (10 : Nat)), (1, 11), (5, 12)])
        e.1 = some (some e.2)) ∧
    (insertAll (fun n => n) [((0 : Nat), (10 : Nat)), (1, 11), (5, 12)]).len = 3 ∧
    (entries (insertAll (fun n => n) [((0 : Nat), (10 : Nat)), (1, 11), (5, 12)])).Perm
      [((0 : Nat), (10 : Nat)), (1, 11), (5, 12)] :=
  c2_insert_get_round_trip (fun n => n) [((0 : Nat), (10 : Nat)), (1, 11), (5, 12)]
    (by decide)

/-- C3: insert resizes exactly when, on the pre-insert state, the bucket count
is zero or items > 3 * buckets / 4 (integer division); resize maps a zero
bucket count to 1 and otherwise doubles; and the inserted key ends up in the
bucket chosen by its hash modulo the post-growth bucket count, i.e. the index
is computed after the resize. -/
theorem c3_resize_trigger_and_size (hash : K → Nat) (m : HashMap K V)
    (key : K) (value : V) :
    ((resize hash m).buckets.length
       = if m.buckets.length = 0 then 1 else 2 * m.buckets.length) ∧
    ((insert hash m key value).2.buckets.length
       = if m.buckets.length = 0 ∨ m.items > 3 * m.buckets.length / 4
         then (if m.buckets.length = 0 then 1 else 2 * m.buckets.length)
         else m.buckets.length) ∧
    (∃ v', (key, v') ∈ bucketAt (insert hash m key value).2.buckets
        (hash key % (insert hash m key value).2.buckets.length)) := by
  refine ⟨resize_length hash m, ?_, ?_⟩
  · rw [insert_buckets_length, growIfNeeded_length]
  · have hpos := growIfNeeded_length_pos hash m
    have hidx : hash key % (growIfNeeded hash m).buckets.length
        < (growIfNeeded hash m).buckets.length := Nat.mod_lt _ hpos
    cases hr : replaceInBucket key value (bucketAt (growIfNeeded hash m).buckets
        (hash key % (growIfNeeded hash m).buckets.length)) with
    | none =>
      refine ⟨value, ?_⟩
      rw [insert_eq_none_case hash m key value hr]
      show (key, value) ∈ bucketAt ((growIfNeeded hash m).buckets.set
          (hash key % (growIfNeeded hash m).buckets.length)
          (bucketAt (growIfNeeded hash m).buckets
            (hash key % (growIfNeeded hash m).buckets.length) ++ [(key, value)]))
        (hash key % ((growIfNeeded hash m).buckets.set
          (hash key % (growIfNeeded hash m).buckets.length)
          (bucketAt (growIfNeeded hash m).buckets
            (hash key % (growIfNeeded hash m).buckets.length)
              ++ [(key, value)])).length)
      rw [List.length_set, bucketAt_set_self _ hidx]
      exact List.mem_append.mpr (Or.inr (List.mem_singleton.mpr rfl))
    | some p =>
      obtain ⟨old, bucket'⟩ := p
      obtain ⟨front, rest, e0, hbdecomp, hk, -, hb', -⟩ := replaceInBucket_eq_some hr
      refine ⟨value, ?_⟩
      rw [insert_eq_some_case hash m key value hr]
      show (key, value) ∈ bucketAt ((growIfNeeded hash m).buckets.set
          (hash key % (growIfNeeded hash m).buckets.length) bucket')
        (hash key % ((growIfNeeded hash m).buckets.set
          (hash key % (growIfNeeded hash m).buckets.length) bucket').length)
      rw [List.length_set, bucketAt_set_self _ hidx, hb']
      refine List.mem_append.mpr (Or.inr ?_)
      rw [hk]
      exact List.mem_cons_self _ _

/-- C4: overwriting an existing key returns the previous value wrapped in
some, leaves len() unchanged, and afterwards get returns the new value. -/
theorem c4_overwrite (hash : K → Nat) (m : HashMap K V) (key : K)
    (v_old v_new : V) (hre : Reachable hash m)
    (hget : get hash m key = some (some v_old)) :
    (insert hash m key v_new).1 = some v_old ∧
    (insert hash m key v_new).2.len = m.len ∧
    get hash (insert hash m key v_new).2 key = some (some v_new) := by
  have hinv := reach_inv hre
  have hmem := mem_entries_of_get hinv hget
  obtain ⟨hret, hinv', hitems, es', hpermold, hpermnew, hfree⟩ :=
    insert_found hinv hmem v_new
  exact ⟨hret, hitems, get_found hinv' (hpermnew.mem_iff.mpr (List.mem_cons_self _ _))⟩

/-- Witness for C4 at a concrete input. -/
theorem c4_witness :
    (insert (fun n => n) (insert (fun n => n) (new : HashMap Nat Nat) 3 5).2 3 7).1
      = some 5 ∧
    (insert (fun n => n) (insert (fun n => n) (new : HashMap Nat Nat) 3 5).2 3 7).2.len
      = (insert (fun n => n) (new : HashMap Nat Nat) 3 5).2.len ∧
    get (fun n => n)
      (insert (fun n => n) (insert (fun n => n) (new : HashMap Nat Nat) 3 5).2 3 7).2 3
      = some (some 7) :=
  c4_overwrite (fun n => n) (insert (fun n => n) (new : HashMap Nat Nat) 3 5).2 3 5 7
    (Reachable.ins _ 3 5 Reachable.base) (by decide)

/-- C5: removing a present key returns its value and decrements len() by one,
a subsequent get reports not-found, and a second remove reports not-found and
leaves the table (hence len()) unchanged. -/
theorem c5_remove_twice (hash : K → Nat) (m : HashMap K V) (key : K) (v : V)
    (hre : Reachable hash m) (hget : get hash m key = some (some v)) :
    ∃ m', remove hash m key = some (some v, m') ∧
      m'.len + 1 = m.len ∧
      get hash m' key = some none ∧
      remove hash m' key = some (none, m') := by
  have hinv := reach_inv hre
  have hmem := mem_entries_of_get hinv hget
  obtain ⟨m', heq, hinv', hitems, hlen, hperm, hfree⟩ := remove_found hinv hmem
  have hpos' : 0 < m'.buckets.length := by
    rw [hlen]
    exact length_pos_of_mem_entries hmem
  exact ⟨m', heq, hitems, get_fresh hpos' hfree, remove_fresh hpos' hfree⟩

/-- Witness for C5 at a concrete input. -/
theorem c5_witness :
    ∃ m', remove (fun n => n) (insert (fun n => n) (new : HashMap Nat Nat) 3 5).2 3
        = some (some 5, m') ∧
      m'.len + 1 = (insert (fun n => n) (new : HashMap Nat Nat) 3 5).2.len ∧
      get (fun n => n) m' 3 = some none ∧
      remove (fun n => n) m' 3 = some (none, m') :=
  c5_remove_twice (fun n => n) (insert (fun n => n) (new : HashMap Nat Nat) 3 5).2 3 5
    (Reachable.ins _ 3 5 Reachable.base) (by decide)

/-- C6: a fresh iterator yields exactly the stored entries, each pair once
(no duplicates, no omissions), and the number of yields equals len(). -/
theorem c6_iteration_complete (hash : K → Nat) (m : HashMap K V)
    (hre : Reachable hash m) :
    (HashIter.new m).toList = entries m ∧
    (HashIter.new m).toList.length = m.len ∧
    (HashIter.new m).toList.Nodup := by
  have hinv := reach_inv hre
  refine ⟨toList_new m, ?_, ?_⟩
  · rw [toList_new m]
    exact hinv.count_entries.symm
  · rw [toList_new m]
    exact List.Nodup.of_map Prod.fst hinv.nodup

/-- Witness for C6 at a concrete input. -/
theorem c6_witness :
    (HashIter.new (insert (fun n => n) (new : HashMap Nat Nat) 3 5).2).toList
      = entries (insert (fun n => n) (new : HashMap Nat Nat) 3 5).2 ∧
    (HashIter.new (insert (fun n => n) (new : HashMap Nat Nat) 3 5).2).toList.length
      = (insert (fun n => n) (new : HashMap Nat Nat) 3 5).2.len ∧
    (HashIter.new (insert (fun n => n) (new : HashMap Nat Nat) 3 5).2).toList.Nodup :=
  c6_iteration_complete (fun n => n) (insert (fun n => n) (new : HashMap Nat Nat) 3 5).2
    (Reachable.ins _ 3 5 Reachable.base)

/-- C7: on every reachable table the item counter equals the sum of the
bucket lengths, and each of resize, insert and (non-panicking) remove
preserves that equality. -/
theorem c7_count_invariant (hash : K → Nat) (m : HashMap K V) :
    (Reachable hash m → count_ok m) ∧
    (count_ok m → count_ok (resize hash m)) ∧
    (∀ key value, count_ok m → count_ok (insert hash m key value).2) ∧
    (∀ key r m', count_ok m → remove hash m key = some (r, m') → count_ok m') :=
  ⟨fun hre => (reach_inv hre).count, resize_count_ok,
    fun key value h => insert_count_ok h key value,
    fun key r m' h heq => remove_count_ok h heq⟩

/-- Witness for C7 at a concrete input. -/
theorem c7_witness : count_ok (insert (fun n => n) (new : HashMap Nat Nat) 2 3).2 :=
  (c7_count_invariant (fun n => n) (new : HashMap Nat Nat)).2.2.1 2 3
    (show count_ok (new : HashMap Nat Nat) from rfl)

theorem reach_pow2 {hash : K → Nat} {m : HashMap K V} (hre : Reachable hash m) :
    m.buckets.length = 0 ∨ ∃ j, m.buckets.length = 2 ^ j := by
  induction hre with
  | base => exact Or.inl rfl
  | ins m key value hr ih =>
    rw [insert_buckets_length, growIfNeeded_length]
    by_cases h0 : m.buckets.length = 0
    · rw [if_pos (Or.inl h0), if_pos h0]
      exact Or.inr ⟨0, rfl⟩
    · rcases ih with h | ⟨j, hj⟩
      · exact absurd h h0
      · by_cases hcond : m.buckets.length = 0 ∨ m.items > 3 * m.buckets.length / 4
        · rw [if_pos hcond, if_neg h0, hj]
          refine Or.inr ⟨j + 1, ?_⟩
          rw [Nat.pow_succ, Nat.mul_comm]
        · rw [if_neg hcond]
          exact Or.inr ⟨j, hj⟩
  | rem m key r m' hr heq ih =>
    obtain ⟨-, hcase⟩ := remove_cases heq
    rcases hcase with ⟨-, rfl⟩ | ⟨i, e0, -, -, -, rfl⟩
    · exact ih
    · show (m.buckets.set (hash key % m.buckets.length)
        (swapRemove (bucketAt m.buckets (hash key % m.buckets.length)) i)).length
          = 0 ∨ _
      rw [List.length_set]
      exact ih

/-- C8: on every reachable table the bucket count is zero (only before the
first insert) or a power of two, insert never shrinks it, and remove leaves
it unchanged. -/
theorem c8_bucket_count (hash : K → Nat) (m : HashMap K V)
    (hre : Reachable hash m) :
    (m.buckets.length = 0 ∨ ∃ j, m.buckets.length = 2 ^ j) ∧
    (∀ key value, m.buckets.length ≤ (insert hash m key value).2.buckets.length) ∧
    (∀ key r m', remove hash m key = some (r, m') →
      m'.buckets.length = m.buckets.length) := by
  refine ⟨reach_pow2 hre, ?_, ?_⟩
  · intro key value
    rw [insert_buckets_length, growIfNeeded_length]
    by_cases hcond : m.buckets.length = 0 ∨ m.items > 3 * m.buckets.length / 4
    · rw [if_pos hcond]
      by_cases h0 : m.buckets.length = 0
      · rw [if_pos h0, h0]
        omega
      · rw [if_neg h0]
        omega
    · rw [if_neg hcond]
  · intro key r m' heq
    obtain ⟨-, hcase⟩ := remove_cases heq
    rcases hcase with ⟨-, rfl⟩ | ⟨i, e0, -, -, -, rfl⟩
    · rfl
    · exact List.length_set _ _ _

/-- Witness for C8 at a concrete input. -/
theorem c8_witness :
    ((insert (fun n => n) (new : HashMap Nat Nat) 3 5).2.buckets.length = 0 ∨
      ∃ j, (insert (fun n => n) (new : HashMap Nat Nat) 3 5).2.buckets.length = 2 ^ j) ∧
    (∀ key value, (insert (fun n => n) (new : HashMap Nat Nat) 3 5).2.buckets.length ≤
      (insert (fun n => n) (insert (fun n => n) (new : HashMap Nat Nat) 3 5).2
        key value).2.buckets.length) ∧
    (∀ key r m', remove (fun n => n)
        (insert (fun n => n) (new : HashMap Nat Nat) 3 5).2 key = some (r, m') →
      m'.buckets.length
        = (insert (fun n => n) (new : HashMap Nat Nat) 3 5).2.buckets.length) :=
  c8_bucket_count (fun n => n) (insert (fun n => n) (new : HashMap Nat Nat) 3 5).2
    (Reachable.ins _ 3 5 Reachable.base)

/-- C9: contains_key agrees with get on every table and query, including the
panic on zero buckets: contains_key is exactly get followed by isSome. -/
theorem c9_contains_iff_get (hash : K → Nat) (m : HashMap K V) (q : K) :
    contains_key hash m q = (get hash m q).map Option.isSome := by
  cases hb : bucket_idx hash m q with
  | none => simp [contains_key, HashMap.get, hb]
  | some idx =>
    simp only [contains_key, HashMap.get, hb, Option.map_some']
    rw [any_eq_isSome_find]
    cases (bucketAt m.buckets idx).find? (fun e => e.1 == q) <;> rfl

/-- C10: with at least one bucket, bucket_idx returns an index strictly below
the bucket count, so the bucket reads in get, contains_key and remove are in
bounds and those operations return normally; insert indexes modulo the
post-growth count, which is always positive. -/
theorem c10_index_in_bounds (hash : K → Nat) (m : HashMap K V) (q : K)
    (h : 1 ≤ m.buckets.length) :
    bucket_idx hash m q = some (hash q % m.buckets.length) ∧
    hash q % m.buckets.length < m.buckets.length ∧
    (get hash m q).isSome = true ∧
    (contains_key hash m q).isSome = true ∧
    (remove hash m q).isSome = true ∧
    hash q % (growIfNeeded hash m).buckets.length
      < (growIfNeeded hash m).buckets.length := by
  refine ⟨?_, Nat.mod_lt _ h, get_isSome h q, contains_key_isSome h q,
    remove_isSome h q, Nat.mod_lt _ (growIfNeeded_length_pos hash m)⟩
  rw [bucket_idx, if_neg (Nat.pos_iff_ne_zero.mp h)]

/-- Witness for C10 at a concrete input. -/
theorem c10_witness :
    bucket_idx (fun n => n) (insert (fun n => n) (new : HashMap Nat Nat) 3 5).2 9
      = some (9 % (insert (fun n => n) (new : HashMap Nat Nat) 3 5).2.buckets.length) ∧
    9 % (insert (fun n => n) (new : HashMap Nat Nat) 3 5).2.buckets.length
      < (insert (fun n => n) (new : HashMap Nat Nat) 3 5).2.buckets.length ∧
    (get (fun n => n) (insert (fun n => n) (new : HashMap Nat Nat) 3 5).2 9).isSome
      = true ∧
    (contains_key (fun n => n) (insert (fun n => n) (new : HashMap Nat Nat) 3 5).2
      9).isSome = true ∧
    (remove (fun n => n) (insert (fun n => n) (new : HashMap Nat Nat) 3 5).2 9).isSome
      = true ∧
    9 % (growIfNeeded (fun n => n)
        (insert (fun n => n) (new : HashMap Nat Nat) 3 5).2).buckets.length
      < (growIfNeeded (fun n => n)
        (insert (fun n => n) (new : HashMap Nat Nat) 3 5).2).buckets.length :=
  c10_index_in_bounds (fun n => n) (insert (fun n => n) (new : HashMap Nat Nat) 3 5).2 9
    (by decide)

end Claims
